import Mathlib

/-!
Verification of the LU-decomposition / linear-solve / matrix-inversion kernel
of the simploce sim-util repository.

The repository contains two variants of the kernel:

* the variant embedded in the second part of `include/simploce/util/singleton.hpp`
  (after the Singleton class): tolerance `SMALL = std::numeric_limits<T>::epsilon()`,
  a returned parity value `d`, a progress indicator written to `std::clog`, and a
  diagonal clamp guarded by the magnitude test `fabs(a(j,j)) <= SMALL`;
* the variant in `include/simploce/util/lu.hpp`: fixed tolerance `SMALL = 1.0e-07`,
  no parity, and a diagonal clamp guarded by the sign test `a(j,j) <= 0.0`.

Both variants share the same loop structure, so the state machine below is
parameterised by the clamp function and the tolerance; each variant is an
instantiation.  Machine doubles are modelled by exact rationals; the tolerance
`std::numeric_limits<double>::epsilon()` is the exactly representable value
`2^-52`.  Caller-supplied Matrix-like and Vector-like storage is modelled as
total functions `Nat -> Nat -> Q` and `Nat -> Q`; the kernel only ever reads and
writes indices below the dimension, matching the abstract indexing capability.
The state carries three ghost fields that the C++ code does not store but whose
values are determined by it: `d` (the parity variable of the singleton.hpp
variant, absent from lu.hpp but never read there), `swaps` (the number of row
interchanges performed), and `p` (an identity matrix dragged through exactly the
row interchanges applied to `a`, recording the row permutation the kernel
applied).  Exceptions are modelled by `Except String`.
-/

namespace Simploce

/-- Write one element of Vector-like rational storage. -/
def upd1 (v : Nat → ℚ) (i : Nat) (x : ℚ) : Nat → ℚ :=
  fun i' => if i' = i then x else v i'

/-- Write one element of Vector-like index storage (pivot vector). -/
def upd1N (v : Nat → Nat) (i : Nat) (x : Nat) : Nat → Nat :=
  fun i' => if i' = i then x else v i'

/-- Write one element of Matrix-like storage. -/
def upd2 (a : Nat → Nat → ℚ) (i j : Nat) (x : ℚ) : Nat → Nat → ℚ :=
  fun i' j' => if i' = i then (if j' = j then x else a i' j') else a i' j'

/-- The identity matrix (used as the start value of the ghost permutation record). -/
def idMat : Nat → Nat → ℚ :=
  fun i j => if i = j then 1 else 0

/-- Exchange rows r1 and r2 of a matrix.  The C++ code swaps element by element
through a temporary; the net effect on the storage is this function. -/
def rowSwap (a : Nat → Nat → ℚ) (r1 r2 : Nat) : Nat → Nat → ℚ :=
  fun i j => if i = r1 then a r2 j else if i = r2 then a r1 j else a i j

/-- Maximum absolute value in row i among columns j < bound, starting from 0,
exactly as the `aamax` accumulation loop of the scale-factor scan computes it
(update on strict `>`). -/
def rowMax (a : Nat → Nat → ℚ) (i : Nat) : Nat → ℚ
  | 0 => 0
  | j+1 => if |a i j| > rowMax a i j then |a i j| else rowMax a i j

/-- The message of the only exception thrown by either variant:
`throw std::domain_error("Matrix LU-decomposition: Singular matrix.")`. -/
def singularMsg : String := "Matrix LU-decomposition: Singular matrix."

/-- Scale-factor scan over rows 0 .. m-1 of an n-column matrix: for each row the
maximum magnitude `aamax` is computed; if `aamax <= SMALL` the singular-matrix
exception is thrown, otherwise `vv[i] = 1/aamax`.  The vector `vv(ndim)` starts
zero-initialised.  Errors of earlier rows take precedence, as in the C++ loop. -/
def scaleScan (small : ℚ) (a : Nat → Nat → ℚ) (n : Nat) : Nat → Except String (Nat → ℚ)
  | 0 => .ok (fun _ => 0)
  | i+1 =>
    match scaleScan small a n i with
    | .error e => .error e
    | .ok vv =>
      if rowMax a i n ≤ small then .error singularMsg
      else .ok (upd1 vv i (1 / rowMax a i n))

/-- Running sum `sum = a(i,j) - sum_-k a(i,k)*a(k,j)` over k < bound, subtracted in
ascending order of k, as in both inner elimination loops. -/
def dotSub (a : Nat → Nat → ℚ) (i j : Nat) : Nat → ℚ
  | 0 => a i j
  | k+1 => dotSub a i j k - a i k * a k j

/-- Loop computing the betas above the diagonal of column j: for rows i < m (in
ascending order) overwrite `a(i,j)` with `a(i,j) - sum_-k<i a(i,k)*a(k,j)`.
The kernel calls it with m = j. -/
def betasAbove (j : Nat) : Nat → (Nat → Nat → ℚ) → (Nat → Nat → ℚ)
  | 0, a => a
  | i+1, a => upd2 (betasAbove j i a) i j (dotSub (betasAbove j i a) i j i)

/-- Accumulator of the pivot-search loop: the matrix being overwritten in place,
the best figure of merit `aamax` so far, and its row `imax`. -/
structure PivotAcc where
  a : Nat → Nat → ℚ
  aamax : ℚ
  imax : Nat

/-- Pivot-search loop of column j over rows i = j .. j+cnt-1: overwrite `a(i,j)`
with the elimination sum, compute the figure of merit `dum = vv[i]*fabs(sum)`, and
update `(aamax, imax)` whenever `dum >= aamax`.  The kernel starts it with
`aamax = 0` and `imax = 0` and cnt = ndim - j.  (lu.hpp declares `imax` outside
the column loop, but since the first iteration i = j always satisfies
`dum >= 0 = aamax`, the stale value never survives, so starting from 0 is
observationally identical for both variants.) -/
def pivotSearch (vv : Nat → ℚ) (j : Nat) : Nat → PivotAcc → PivotAcc
  | 0, acc => acc
  | m+1, acc =>
    let acc' := pivotSearch vv j m acc
    let i := j + m
    let sum := dotSub acc'.a i j j
    let dum := vv i * |sum|
    if dum ≥ acc'.aamax then ⟨upd2 acc'.a i j sum, dum, i⟩
    else ⟨upd2 acc'.a i j sum, acc'.aamax, acc'.imax⟩

/-- Diagonal clamp of the singleton.hpp variant:
`a(j,j) = ( std::fabs(a(j,j)) <= SMALL ? SMALL : a(j,j) )`. -/
def clampDiag (small x : ℚ) : ℚ := if |x| ≤ small then small else x

/-- The fixed tolerance `SMALL = 1.0e-07` of the lu.hpp variant. -/
def smallLu : ℚ := 1 / 10000000

/-- Diagonal clamp of the lu.hpp variant: `a(j,j) = a(j,j) <= 0.0 ? SMALL : a(j,j)`. -/
def clampDiagLu (x : ℚ) : ℚ := if x ≤ 0 then smallLu else x

/-- Loop dividing the sub-diagonal alphas of column j by the pivot: for
i = j+1 .. j+cnt, multiply `a(i,j)` by `dum = 1/a(j,j)`.  The kernel calls it with
cnt = ndim - (j+1). -/
def divideBelow (j : Nat) (dum : ℚ) : Nat → (Nat → Nat → ℚ) → (Nat → Nat → ℚ)
  | 0, a => a
  | m+1, a =>
    upd2 (divideBelow j dum m a) (j+1+m) j ((divideBelow j dum m a) (j+1+m) j * dum)

/-- State of the decomposition between columns: matrix, scale factors, pivot
vector, parity variable, and the two ghost records (swap count, applied row
permutation as a matrix). -/
structure LUState where
  a : Nat → Nat → ℚ
  vv : Nat → ℚ
  indx : Nat → Nat
  d : ℚ
  swaps : Nat
  p : Nat → Nat → ℚ

/-- Stages a-d of one column of the decomposition, before the diagonal clamp:
betas above the diagonal, pivot search, the conditional row interchange
(which also copies `vv[j]` onto `vv[imax]` and flips the parity), and recording
`indx[j] = imax`.  The ghost permutation record undergoes exactly the row
interchange applied to the matrix. -/
def preClamp (n j : Nat) (s : LUState) : LUState :=
  let a1 := betasAbove j j s.a
  let pa := pivotSearch s.vv j (n - j) ⟨a1, 0, 0⟩
  let s2 : LUState :=
    if j ≠ pa.imax then
      { a := rowSwap pa.a j pa.imax
        vv := upd1 s.vv pa.imax (s.vv j)
        indx := s.indx
        d := -s.d
        swaps := s.swaps + 1
        p := rowSwap s.p j pa.imax }
    else
      { s with a := pa.a }
  { s2 with indx := upd1N s2.indx j pa.imax }

/-- One full column j of the decomposition: stages a-d, then the diagonal clamp
(stage e), then for j below the last column the division of the sub-diagonal
alphas by the pivot (stage f). -/
def columnStep (clamp : ℚ → ℚ) (n j : Nat) (s : LUState) : LUState :=
  let s3 := preClamp n j s
  let a4 := upd2 s3.a j j (clamp (s3.a j j))
  let a5 := if j ≠ n - 1 then divideBelow j (1 / a4 j j) (n - (j+1)) a4 else a4
  { s3 with a := a5 }

/-- Column loop of the decomposition over columns 0 .. m-1 (in ascending order). -/
def columnLoop (clamp : ℚ → ℚ) (n : Nat) : Nat → LUState → LUState
  | 0, s => s
  | j+1, s => columnStep clamp n j (columnLoop clamp n j s)

/-- State at entry of the column loop: the input matrix, the scale factors of the
scan, the zero-initialised pivot vector `indx = VECTOR<std::size_t>(ndim)`,
parity `d = 1.0`, and the ghost records at their start values. -/
def initState (a : Nat → Nat → ℚ) (vv : Nat → ℚ) : LUState :=
  ⟨a, vv, fun _ => 0, 1, 0, idMat⟩

/-- Shared body of `luDecomposition`: scale-factor scan (which alone can throw),
then the column loop. -/
def luDecompositionWith (clamp : ℚ → ℚ) (small : ℚ) (a : Nat → Nat → ℚ) (n : Nat) :
    Except String LUState :=
  match scaleScan small a n n with
  | .error e => .error e
  | .ok vv => .ok (columnLoop clamp n n (initState a vv))

/-- Machine epsilon of `double`, `std::numeric_limits<double>::epsilon() = 2^-52`,
the tolerance of the singleton.hpp variant. -/
def eps : ℚ := 1 / 2^52

/-- The `luDecomposition` of the singleton.hpp variant (tolerance `small`,
intended to be instantiated with machine epsilon; magnitude-guarded clamp). -/
def luDecomposition (small : ℚ) (a : Nat → Nat → ℚ) (n : Nat) : Except String LUState :=
  luDecompositionWith (clampDiag small) small a n

/-- The `luDecomposition` of the lu.hpp variant (fixed tolerance `1.0e-07`,
sign-guarded clamp, no parity returned). -/
def luDecompositionLu (a : Nat → Nat → ℚ) (n : Nat) : Except String LUState :=
  luDecompositionWith clampDiagLu smallLu a n

/-! Back substitution (singleton.hpp variant, `backSubstitution(a, ndim, indx, b)`):
the right-hand side b is permuted and forward-substituted in one fused loop that
skips leading zeros through the index `ii` (a value is compared against SMALL to
decide whether forward substitution has started), then the backward loop divides
by the diagonal elements. -/

/-- Accumulator of the fused permute/forward loop: the vector being overwritten
and the skip index `ii`. -/
structure BSAcc where
  b : Nat → ℚ
  ii : Nat

/-- Inner subtraction loop shared by both substitution phases:
`sum -= a(i, lo+m) * b(lo+m)` for m < cnt, in ascending order. -/
def innerSub (a : Nat → Nat → ℚ) (b : Nat → ℚ) (i lo : Nat) (sum : ℚ) : Nat → ℚ
  | 0 => sum
  | m+1 => innerSub a b i lo sum m - a i (lo+m) * b (lo+m)

/-- Fused permutation / forward-substitution loop over rows i = 0 .. m-1:
`l = indx[i]; sum = b[l]; b[l] = b[i];` and then either the subtraction loop from
`ii-1` to `i-1` (when `ii != 0`) or the SMALL test that starts it; finally
`b[i] = sum`. -/
def bsubPhase1 (small : ℚ) (a : Nat → Nat → ℚ) (indx : Nat → Nat) :
    Nat → BSAcc → BSAcc
  | 0, acc => acc
  | i+1, acc =>
    let acc' := bsubPhase1 small a indx i acc
    let l := indx i
    let sum := acc'.b l
    let b1 := upd1 acc'.b l (acc'.b i)
    if acc'.ii ≠ 0 then
      ⟨upd1 b1 i (innerSub a b1 i (acc'.ii - 1) sum (i - (acc'.ii - 1))), acc'.ii⟩
    else
      if |sum| > small then ⟨upd1 b1 i sum, i + 1⟩
      else ⟨upd1 b1 i sum, acc'.ii⟩

/-- Backward-substitution loop over rows i = n-1 down to n-m:
`sum = b(i) - sum_-j>i a(i,j)*b(j); b[i] = sum / a(i,i)`.  Called with m = n. -/
def bsubPhase2 (a : Nat → Nat → ℚ) (n : Nat) : Nat → (Nat → ℚ) → (Nat → ℚ)
  | 0, b => b
  | m+1, b =>
    let b' := bsubPhase2 a n m b
    let i := n - (m+1)
    upd1 b' i (innerSub a b' i (i+1) (b' i) (n - (i+1)) / a i i)

/-- The `backSubstitution` of the singleton.hpp variant; the solution replaces b. -/
def backSubstitution (small : ℚ) (a : Nat → Nat → ℚ) (n : Nat) (indx : Nat → Nat)
    (b : Nat → ℚ) : Nat → ℚ :=
  bsubPhase2 a n n (bsubPhase1 small a indx n ⟨b, 0⟩).b

/-- Decompose followed by Solve on the same right-hand side. -/
def decomposeSolve (small : ℚ) (a : Nat → Nat → ℚ) (n : Nat) (b : Nat → ℚ) :
    Except String (Nat → ℚ) :=
  (luDecomposition small a n).map fun r => backSubstitution small r.a n r.indx b

/-! Matrix inversion from the decomposed matrix
(`inverseNoLU(a, ndim, indx)`, singleton.hpp variant). -/

/-- The unit basis vector e_k: the column buffer after `col[i] = 0.0` for all
rows and `col[j] = 1.0`. -/
def unitVec (k : Nat) : Nat → ℚ := fun i => if i = k then 1 else 0

/-- Loop copying a solved column into column j of the inverse buffer:
`inv_a(i,j) = col[i]` for i < m. -/
def writeColLoop (j : Nat) (col : Nat → ℚ) : Nat → (Nat → Nat → ℚ) → (Nat → Nat → ℚ)
  | 0, m => m
  | i+1, m => upd2 (writeColLoop j col i m) i j (col i)

/-- Column loop of `inverseNoLU`: for k = 0 .. m-1, solve against the unit basis
vector e_k (back substitution against the still-unmodified decomposed matrix)
and store the solution as column k of the buffer `inv_a`. -/
def invColumns (small : ℚ) (a : Nat → Nat → ℚ) (n : Nat) (indx : Nat → Nat) :
    Nat → (Nat → Nat → ℚ) → (Nat → Nat → ℚ)
  | 0, inv => inv
  | k+1, inv =>
    writeColLoop k (backSubstitution small a n indx (unitVec k)) n
      (invColumns small a n indx k inv)

/-- Row-copy loop of the final copy-back: `a(i,j) = inv_a(i,j)` for j < m. -/
def copyRow (src : Nat → Nat → ℚ) (i : Nat) : Nat → (Nat → Nat → ℚ) → (Nat → Nat → ℚ)
  | 0, a => a
  | j+1, a => upd2 (copyRow src i j a) i j (src i j)

/-- Copy-back loop of `inverseNoLU`: all n columns of rows i < m of the buffer
`inv_a` overwrite the caller's matrix storage. -/
def copyBack (src : Nat → Nat → ℚ) (n : Nat) : Nat → (Nat → Nat → ℚ) → (Nat → Nat → ℚ)
  | 0, a => a
  | i+1, a => copyRow src i n (copyBack src n i a)

/-- The `inverseNoLU` of the singleton.hpp variant: n solves against unit basis
vectors collected into the fresh buffer `inv_a` (zero-initialised on
construction), then copied back over the caller's matrix. -/
def inverseNoLU (small : ℚ) (a : Nat → Nat → ℚ) (n : Nat) (indx : Nat → Nat) :
    Nat → Nat → ℚ :=
  copyBack (invColumns small a n indx n (fun _ _ => 0)) n n a

/-! Progress indicator of the singleton.hpp variant.  At the top of the column
loop the code computes `std::size_t n = ndim/100.0 * 10.0;` once and then tests
`if (j % n == 0)` before writing the percentage to `std::clog`.  The division
and multiplication are exact in rationals; the store into `std::size_t`
truncates. -/

/-- The progress stride `std::size_t n = ndim/100.0 * 10.0;`.  Exact rational
arithmetic agrees with the double computation on the truncated result for all
dimensions of interest; in particular for ndim at most 9 both give a value
strictly below 1, which truncates to 0. -/
def progressInterval (ndim : Nat) : Nat := (⌊(ndim : ℚ) / 100 * 10⌋).toNat

/-- The guard `j % n == 0` of the progress indicator.  C++ integer remainder by
zero is undefined behaviour, modelled as `none`. -/
def progressCheck (ndim j : Nat) : Option Bool :=
  if progressInterval ndim = 0 then none
  else some (decide (j % progressInterval ndim = 0))

/-! Concrete inputs and result extractors used by the concrete-scenario claims. -/

/-- The matrix A = [[4,3],[6,3]] of the concrete scenario. -/
def matA : Nat → Nat → ℚ := fun i j =>
  if i = 0 then (if j = 0 then 4 else if j = 1 then 3 else 0)
  else if i = 1 then (if j = 0 then 6 else if j = 1 then 3 else 0) else 0

/-- The right-hand side b = [1,2] of the concrete scenario. -/
def bvec : Nat → ℚ := fun i => if i = 0 then 1 else if i = 1 then 2 else 0

/-- The scale factors the scan produces for matA: [1/4, 1/6]. -/
def vvA : Nat → ℚ := fun i => if i = 0 then 1/4 else if i = 1 then 1/6 else 0

/-- Parity value of a decomposition run. -/
def luParity (small : ℚ) (a : Nat → Nat → ℚ) (n : Nat) : Except String ℚ :=
  (luDecomposition small a n).map fun r => r.d

/-- Ghost swap count of a decomposition run. -/
def luSwapCount (small : ℚ) (a : Nat → Nat → ℚ) (n : Nat) : Except String Nat :=
  (luDecomposition small a n).map fun r => r.swaps

/-- One entry of the pivot vector of a decomposition run. -/
def luPivotAt (small : ℚ) (a : Nat → Nat → ℚ) (n j : Nat) : Except String Nat :=
  (luDecomposition small a n).map fun r => r.indx j

/-- One entry of the decomposed matrix. -/
def luEntry (small : ℚ) (a : Nat → Nat → ℚ) (n i j : Nat) : Except String ℚ :=
  (luDecomposition small a n).map fun r => r.a i j

/-- Whether a decomposition run succeeds. -/
def luIsOk (small : ℚ) (a : Nat → Nat → ℚ) (n : Nat) : Bool :=
  match luDecomposition small a n with
  | .ok _ => true
  | .error _ => false

/-- Whether an lu.hpp-variant decomposition run succeeds. -/
def luIsOkLu (a : Nat → Nat → ℚ) (n : Nat) : Bool :=
  match luDecompositionLu a n with
  | .ok _ => true
  | .error _ => false

/-- The tolerance test of the concrete scenario: whether x is within tol of
target.  Used to state the spec's approximate-equality checks as a Boolean. -/
def within (x target tol : ℚ) : Bool := decide (|x - target| ≤ tol)

/-- Figure of merit `vv[i] * fabs(sum)` of row i in the pivot search of column j,
expressed against the matrix at entry of the pivot phase (the in-place updates the
search makes do not feed back into the sums of later rows, which is proved below). -/
def pivotMerit (vv : Nat → ℚ) (a : Nat → Nat → ℚ) (j i : Nat) : ℚ :=
  vv i * |dotSub a i j j|

/-- Replay of the recorded interchanges: for j = 0 .. m-1 in order, swap rows j
and indx[j] of the given matrix.  The permutation-validity property compares this,
applied to the identity, with the ghost permutation record. -/
def applySwaps (indx : Nat → Nat) : Nat → (Nat → Nat → ℚ) → (Nat → Nat → ℚ)
  | 0, m => m
  | j+1, m => rowSwap (applySwaps indx j m) j (indx j)

/-- The pivot row the search of column j selects, as used by `preClamp`. -/
def colImax (n j : Nat) (s : LUState) : Nat :=
  (pivotSearch s.vv j (n - j) ⟨betasAbove j j s.a, 0, 0⟩).imax

/-! Helper lemmas on the storage model and the loop bodies. -/

lemma upd1_self (v : Nat → ℚ) (i : Nat) (x : ℚ) : upd1 v i x i = x := by
  simp [upd1]

lemma upd1_ne (v : Nat → ℚ) (i : Nat) (x : ℚ) {i' : Nat} (h : i' ≠ i) :
    upd1 v i x i' = v i' := by
  simp [upd1, h]

lemma upd1N_self (v : Nat → Nat) (i : Nat) (x : Nat) : upd1N v i x i = x := by
  simp [upd1N]

lemma upd1N_ne (v : Nat → Nat) (i : Nat) (x : Nat) {i' : Nat} (h : i' ≠ i) :
    upd1N v i x i' = v i' := by
  simp [upd1N, h]

lemma upd2_self (a : Nat → Nat → ℚ) (i j : Nat) (x : ℚ) : upd2 a i j x i j = x := by
  simp [upd2]

lemma upd2_ne (a : Nat → Nat → ℚ) (i j : Nat) (x : ℚ) {i' j' : Nat}
    (h : i' ≠ i ∨ j' ≠ j) : upd2 a i j x i' j' = a i' j' := by
  rcases h with h | h
  · simp [upd2, h]
  · simp [upd2, h]

lemma rowSwap_self (a : Nat → Nat → ℚ) (r : Nat) : rowSwap a r r = a := by
  funext i j
  by_cases h : i = r <;> simp [rowSwap, h]

lemma rowSwap_other (a : Nat → Nat → ℚ) (r1 r2 : Nat) {i : Nat} (h1 : i ≠ r1)
    (h2 : i ≠ r2) (j : Nat) : rowSwap a r1 r2 i j = a i j := by
  simp [rowSwap, h1, h2]

lemma rowMax_nonneg (a : Nat → Nat → ℚ) (i : Nat) : ∀ m, 0 ≤ rowMax a i m := by
  intro m
  induction m with
  | zero => simp [rowMax]
  | succ k ih =>
    rw [rowMax]
    split
    · exact abs_nonneg _
    · exact ih

lemma scaleScan_ok_nonneg (small : ℚ) (a : Nat → Nat → ℚ) (n : Nat) :
    ∀ m vv, scaleScan small a n m = .ok vv → ∀ i, 0 ≤ vv i := by
  intro m
  induction m with
  | zero =>
    intro vv h i
    simp only [scaleScan] at h
    cases h
    simp
  | succ k ih =>
    intro vv h i
    simp only [scaleScan] at h
    rcases hk : scaleScan small a n k with e | vv'
    · rw [hk] at h
      exact absurd h (by simp)
    · rw [hk] at h
      simp only [] at h
      by_cases hle : rowMax a k n ≤ small
      · rw [if_pos hle] at h
        exact absurd h (by simp)
      · rw [if_neg hle] at h
        have hvv : vv = upd1 vv' k (1 / rowMax a k n) := by
          exact (Except.ok.injEq _ _).mp h.symm
        subst hvv
        by_cases hik : i = k
        · subst hik
          rw [upd1_self]
          exact one_div_nonneg.mpr (rowMax_nonneg a i n)
        · rw [upd1_ne _ _ _ hik]
          exact ih vv' hk i

lemma scaleScan_error_msg (small : ℚ) (a : Nat → Nat → ℚ) (n : Nat) :
    ∀ m e, scaleScan small a n m = .error e → e = singularMsg := by
  intro m
  induction m with
  | zero =>
    intro e h
    simp [scaleScan] at h
  | succ k ih =>
    intro e h
    simp only [scaleScan] at h
    rcases hk : scaleScan small a n k with e' | vv'
    · rw [hk] at h
      simp only [] at h
      injection h with h2
      exact h2 ▸ ih e' hk
    · rw [hk] at h
      simp only [] at h
      by_cases hle : rowMax a k n ≤ small
      · rw [if_pos hle] at h
        injection h with h2
        exact h2.symm
      · rw [if_neg hle] at h
        exact absurd h (by simp)

lemma scaleScan_error_iff (small : ℚ) (a : Nat → Nat → ℚ) (n : Nat) :
    ∀ m, (∃ e, scaleScan small a n m = .error e) ↔
      ∃ i, i < m ∧ rowMax a i n ≤ small := by
  intro m
  induction m with
  | zero => simp [scaleScan]
  | succ k ih =>
    constructor
    · rintro ⟨e, h⟩
      simp only [scaleScan] at h
      rcases hk : scaleScan small a n k with e' | vv'
      · rcases ih.mp ⟨e', hk⟩ with ⟨i, hi, hle⟩
        exact ⟨i, Nat.lt_succ_of_lt hi, hle⟩
      · rw [hk] at h
        simp only [] at h
        by_cases hle : rowMax a k n ≤ small
        · exact ⟨k, Nat.lt_succ_self k, hle⟩
        · rw [if_neg hle] at h
          exact absurd h (by simp)
    · rintro ⟨i, hi, hle⟩
      rcases hk : scaleScan small a n k with e' | vv'
      · exact ⟨e', by simp only [scaleScan]; rw [hk]⟩
      · rcases Nat.lt_succ_iff_lt_or_eq.mp hi with hik | hik
        · rcases ih.mpr ⟨i, hik, hle⟩ with ⟨e, he⟩
          rw [hk] at he
          exact absurd he (by simp)
        · subst hik
          exact ⟨singularMsg, by simp only [scaleScan]; rw [hk]; simp only []; rw [if_pos hle]⟩

lemma dotSub_congr (a b : Nat → Nat → ℚ) (i j : Nat) (hij : a i j = b i j) :
    ∀ k, (∀ t, t < k → a i t = b i t) → (∀ t, t < k → a t j = b t j) →
      dotSub a i j k = dotSub b i j k := by
  intro k
  induction k with
  | zero =>
    intro _ _
    simpa [dotSub] using hij
  | succ m ih =>
    intro h1 h2
    rw [dotSub, dotSub,
        ih (fun t ht => h1 t (ht.trans (Nat.lt_succ_self m)))
           (fun t ht => h2 t (ht.trans (Nat.lt_succ_self m))),
        h1 m (Nat.lt_succ_self m), h2 m (Nat.lt_succ_self m)]

lemma pivotSearch_a_eq (vv : Nat → ℚ) (j : Nat) :
    ∀ m acc i' j', (j' ≠ j ∨ i' < j ∨ j + m ≤ i') →
      (pivotSearch vv j m acc).a i' j' = acc.a i' j' := by
  intro m
  induction m with
  | zero =>
    intro acc i' j' _
    rfl
  | succ k ih =>
    intro acc i' j' h
    have hw : i' ≠ j + k ∨ j' ≠ j := by
      rcases h with h | h | h
      · exact Or.inr h
      · exact Or.inl (Nat.ne_of_lt (h.trans_le (Nat.le_add_right j k)))
      · exact Or.inl (Nat.ne_of_gt (Nat.lt_of_succ_le (by omega)))
    have hih : j' ≠ j ∨ i' < j ∨ j + k ≤ i' := by
      rcases h with h | h | h
      · exact Or.inl h
      · exact Or.inr (Or.inl h)
      · exact Or.inr (Or.inr (by omega))
    simp only [pivotSearch]
    split
    · exact (upd2_ne _ _ _ _ hw).trans (ih acc i' j' hih)
    · exact (upd2_ne _ _ _ _ hw).trans (ih acc i' j' hih)

lemma pivotSearch_spec (vv : Nat → ℚ) (a0 : Nat → Nat → ℚ) (j : Nat)
    (hvv : ∀ i, 0 ≤ vv i) :
    ∀ m, 1 ≤ m →
      (j ≤ (pivotSearch vv j m ⟨a0, 0, 0⟩).imax ∧
        (pivotSearch vv j m ⟨a0, 0, 0⟩).imax < j + m) ∧
      (pivotSearch vv j m ⟨a0, 0, 0⟩).aamax
        = pivotMerit vv a0 j (pivotSearch vv j m ⟨a0, 0, 0⟩).imax ∧
      (∀ i, j ≤ i → i < j + m →
        pivotMerit vv a0 j i ≤ (pivotSearch vv j m ⟨a0, 0, 0⟩).aamax) ∧
      (∀ i, j ≤ i → i < j + m → (pivotSearch vv j m ⟨a0, 0, 0⟩).imax < i →
        pivotMerit vv a0 j i < (pivotSearch vv j m ⟨a0, 0, 0⟩).aamax) := by
  intro m
  induction m with
  | zero =>
    intro h
    exact absurd h (by omega)
  | succ k ih =>
    intro _
    rcases Nat.eq_zero_or_pos k with hk | hk
    · subst hk
      simp only [pivotSearch]
      split
      · dsimp only
        refine ⟨⟨by omega, by omega⟩, by simp [pivotMerit], ?_, ?_⟩
        · intro i hij hik
          have : i = j := by omega
          subst this
          simp [pivotMerit]
        · intro i hij hik him
          omega
      · rename_i hcond
        exact absurd (mul_nonneg (hvv _) (abs_nonneg _)) (by simpa using hcond)
    · have ih' := ih hk
      have hij : (pivotSearch vv j k ⟨a0, 0, 0⟩).a (j+k) j = a0 (j+k) j :=
        pivotSearch_a_eq vv j k ⟨a0, 0, 0⟩ (j+k) j (Or.inr (Or.inr (le_refl _)))
      have h1 : ∀ t, t < j → (pivotSearch vv j k ⟨a0, 0, 0⟩).a (j+k) t = a0 (j+k) t :=
        fun t ht => pivotSearch_a_eq vv j k ⟨a0, 0, 0⟩ (j+k) t (Or.inl (Nat.ne_of_lt ht))
      have h2 : ∀ t, t < j → (pivotSearch vv j k ⟨a0, 0, 0⟩).a t j = a0 t j :=
        fun t ht => pivotSearch_a_eq vv j k ⟨a0, 0, 0⟩ t j (Or.inr (Or.inl ht))
      have hsum : dotSub (pivotSearch vv j k ⟨a0, 0, 0⟩).a (j+k) j j
          = dotSub a0 (j+k) j j :=
        dotSub_congr _ _ _ _ hij j h1 h2
      simp only [pivotSearch]
      split
      · rename_i hcond
        simp only [] at hcond ⊢
        refine ⟨⟨by omega, by omega⟩, by rw [hsum]; simp [pivotMerit], ?_, ?_⟩
        · intro i hji hik
          rcases Nat.lt_succ_iff_lt_or_eq.mp (by omega : i - j < k + 1) with h | h
          · have hik' : i < j + k := by omega
            calc pivotMerit vv a0 j i
                ≤ (pivotSearch vv j k ⟨a0, 0, 0⟩).aamax := ih'.2.2.1 i hji hik'
              _ ≤ vv (j+k) * |dotSub (pivotSearch vv j k ⟨a0, 0, 0⟩).a (j+k) j j| :=
                  hcond
          · have : i = j + k := by omega
            subst this
            rw [hsum]
            simp [pivotMerit]
        · intro i hji hik him
          omega
      · rename_i hcond
        simp only [] at hcond ⊢
        push_neg at hcond
        refine ⟨⟨by omega, by omega⟩, ih'.2.1, ?_, ?_⟩
        · intro i hji hik
          rcases Nat.lt_succ_iff_lt_or_eq.mp (by omega : i - j < k + 1) with h | h
          · exact ih'.2.2.1 i hji (by omega)
          · have : i = j + k := by omega
            subst this
            have : pivotMerit vv a0 j (j+k)
                = vv (j+k) * |dotSub (pivotSearch vv j k ⟨a0, 0, 0⟩).a (j+k) j j| := by
              rw [hsum]; simp [pivotMerit]
            rw [this]
            exact le_of_lt hcond
        · intro i hji hik him
          rcases Nat.lt_succ_iff_lt_or_eq.mp (by omega : i - j < k + 1) with h | h
          · exact ih'.2.2.2 i hji (by omega) him
          · have : i = j + k := by omega
            subst this
            have : pivotMerit vv a0 j (j+k)
                = vv (j+k) * |dotSub (pivotSearch vv j k ⟨a0, 0, 0⟩).a (j+k) j j| := by
              rw [hsum]; simp [pivotMerit]
            rw [this]
            exact hcond

lemma colImax_mem (n j : Nat) (s : LUState) (hvv : ∀ i, 0 ≤ s.vv i) (hj : j < n) :
    j ≤ colImax n j s ∧ colImax n j s < n := by
  have h := (pivotSearch_spec s.vv (betasAbove j j s.a) j hvv (n - j) (by omega)).1
  unfold colImax
  exact ⟨h.1, by omega⟩

lemma preClamp_indx (n j : Nat) (s : LUState) :
    (preClamp n j s).indx = upd1N s.indx j (colImax n j s) := by
  simp only [preClamp, colImax]
  split <;> rfl

lemma preClamp_vv_nonneg (n j : Nat) (s : LUState) (hvv : ∀ i, 0 ≤ s.vv i) :
    ∀ i, 0 ≤ (preClamp n j s).vv i := by
  intro i
  simp only [preClamp]
  split
  · dsimp only
    unfold upd1
    split
    · exact hvv j
    · exact hvv i
  · exact hvv i

lemma preClamp_p (n j : Nat) (s : LUState) :
    (preClamp n j s).p = rowSwap s.p j (colImax n j s) := by
  simp only [preClamp, colImax]
  split
  · rfl
  · rename_i h
    push_neg at h
    dsimp only
    rw [← h]
    exact (rowSwap_self s.p j).symm

lemma preClamp_d (n j : Nat) (s : LUState) :
    ((preClamp n j s).d = s.d ∧ (preClamp n j s).swaps = s.swaps) ∨
    ((preClamp n j s).d = -s.d ∧ (preClamp n j s).swaps = s.swaps + 1) := by
  simp only [preClamp]
  split
  · right
    exact ⟨rfl, rfl⟩
  · left
    exact ⟨rfl, rfl⟩

lemma columnStep_indx (clamp : ℚ → ℚ) (n j : Nat) (s : LUState) :
    (columnStep clamp n j s).indx = (preClamp n j s).indx := rfl

lemma columnStep_p (clamp : ℚ → ℚ) (n j : Nat) (s : LUState) :
    (columnStep clamp n j s).p = (preClamp n j s).p := rfl

lemma columnStep_d (clamp : ℚ → ℚ) (n j : Nat) (s : LUState) :
    (columnStep clamp n j s).d = (preClamp n j s).d := rfl

lemma columnStep_swaps (clamp : ℚ → ℚ) (n j : Nat) (s : LUState) :
    (columnStep clamp n j s).swaps = (preClamp n j s).swaps := rfl

lemma columnStep_vv (clamp : ℚ → ℚ) (n j : Nat) (s : LUState) :
    (columnStep clamp n j s).vv = (preClamp n j s).vv := rfl

lemma betasAbove_eq (j : Nat) :
    ∀ m (a : Nat → Nat → ℚ) i' j', (j' ≠ j ∨ m ≤ i') →
      betasAbove j m a i' j' = a i' j' := by
  intro m
  induction m with
  | zero =>
    intro a i' j' _
    rfl
  | succ k ih =>
    intro a i' j' h
    have hw : i' ≠ k ∨ j' ≠ j := by
      rcases h with h | h
      · exact Or.inr h
      · exact Or.inl (by omega)
    have hih : j' ≠ j ∨ k ≤ i' := by
      rcases h with h | h
      · exact Or.inl h
      · exact Or.inr (by omega)
    rw [betasAbove, upd2_ne _ _ _ _ hw]
    exact ih a i' j' hih

lemma divideBelow_eq (j : Nat) (dum : ℚ) :
    ∀ m (a : Nat → Nat → ℚ) i' j', (j' ≠ j ∨ i' ≤ j ∨ j + m < i') →
      divideBelow j dum m a i' j' = a i' j' := by
  intro m
  induction m with
  | zero =>
    intro a i' j' _
    rfl
  | succ k ih =>
    intro a i' j' h
    have hw : i' ≠ j+1+k ∨ j' ≠ j := by
      rcases h with h | h | h
      · exact Or.inr h
      · exact Or.inl (by omega)
      · exact Or.inl (by omega)
    have hih : j' ≠ j ∨ i' ≤ j ∨ j + k < i' := by
      rcases h with h | h | h
      · exact Or.inl h
      · exact Or.inr (Or.inl h)
      · exact Or.inr (Or.inr (by omega))
    rw [divideBelow, upd2_ne _ _ _ _ hw]
    exact ih a i' j' hih

lemma preClamp_a_offdiag (n j : Nat) (s : LUState) (hvv : ∀ i, 0 ≤ s.vv i)
    (hj : j < n) {i : Nat} (hi : i < j) :
    (preClamp n j s).a i i = s.a i i := by
  have him := colImax_mem n j s hvv hj
  unfold colImax at him
  simp only [preClamp]
  split
  · dsimp only
    rw [rowSwap_other _ _ _ (by omega) (by omega)]
    rw [pivotSearch_a_eq _ _ _ _ _ _ (Or.inr (Or.inl hi))]
    exact betasAbove_eq _ _ _ _ _ (Or.inl (by omega))
  · dsimp only
    rw [pivotSearch_a_eq _ _ _ _ _ _ (Or.inr (Or.inl hi))]
    exact betasAbove_eq _ _ _ _ _ (Or.inl (by omega))

lemma columnStep_diag_lt (clamp : ℚ → ℚ) (n j : Nat) (s : LUState)
    (hvv : ∀ i, 0 ≤ s.vv i) (hj : j < n) {i : Nat} (hi : i < j) :
    (columnStep clamp n j s).a i i = s.a i i := by
  simp only [columnStep]
  split
  · rw [divideBelow_eq _ _ _ _ _ _ (Or.inr (Or.inl (le_of_lt hi))),
        upd2_ne _ _ _ _ (Or.inl (Nat.ne_of_lt hi))]
    exact preClamp_a_offdiag n j s hvv hj hi
  · rw [upd2_ne _ _ _ _ (Or.inl (Nat.ne_of_lt hi))]
    exact preClamp_a_offdiag n j s hvv hj hi

lemma columnStep_diag_self (clamp : ℚ → ℚ) (n j : Nat) (s : LUState) :
    (columnStep clamp n j s).a j j = clamp ((preClamp n j s).a j j) := by
  simp only [columnStep]
  split
  · rw [divideBelow_eq _ _ _ _ _ _ (Or.inr (Or.inl (le_refl j))), upd2_self]
  · rw [upd2_self]

lemma columnLoop_vv_nonneg (clamp : ℚ → ℚ) (n : Nat) :
    ∀ m s, (∀ i, 0 ≤ s.vv i) → ∀ i, 0 ≤ (columnLoop clamp n m s).vv i := by
  intro m
  induction m with
  | zero =>
    intro s hvv i
    exact hvv i
  | succ k ih =>
    intro s hvv i
    rw [columnLoop, columnStep_vv]
    exact preClamp_vv_nonneg n k _ (ih s hvv) i

lemma columnLoop_diag (clamp : ℚ → ℚ) (Pd : ℚ → Prop) (hc : ∀ x, Pd (clamp x))
    (n : Nat) :
    ∀ m, m ≤ n → ∀ s, (∀ i, 0 ≤ s.vv i) →
      ∀ i, i < m → Pd ((columnLoop clamp n m s).a i i) := by
  intro m
  induction m with
  | zero =>
    intro _ s _ i hi
    exact absurd hi (by omega)
  | succ k ih =>
    intro hm s hvv i hi
    rw [columnLoop]
    rcases Nat.lt_succ_iff_lt_or_eq.mp hi with hik | hik
    · rw [columnStep_diag_lt clamp n k _ (columnLoop_vv_nonneg clamp n k s hvv)
        (by omega) hik]
      exact ih (by omega) s hvv i hik
    · subst hik
      rw [columnStep_diag_self]
      exact hc _

lemma columnLoop_parity (clamp : ℚ → ℚ) (n : Nat) :
    ∀ m s, s.d = (-1)^s.swaps →
      (columnLoop clamp n m s).d = (-1)^(columnLoop clamp n m s).swaps := by
  intro m
  induction m with
  | zero =>
    intro s h
    exact h
  | succ k ih =>
    intro s h
    rw [columnLoop, columnStep_d, columnStep_swaps]
    rcases preClamp_d n k (columnLoop clamp n k s) with ⟨hd, hs⟩ | ⟨hd, hs⟩
    · rw [hd, hs]
      exact ih s h
    · rw [hd, hs, ih s h]
      rw [pow_succ]
      ring

lemma luDecompositionWith_ok (clamp : ℚ → ℚ) (small : ℚ) (a : Nat → Nat → ℚ)
    (n : Nat) (r : LUState) (h : luDecompositionWith clamp small a n = .ok r) :
    ∃ vv, scaleScan small a n n = .ok vv ∧ r = columnLoop clamp n n (initState a vv) := by
  unfold luDecompositionWith at h
  rcases hs : scaleScan small a n n with e | vv
  · rw [hs] at h
    exact absurd h (by simp)
  · rw [hs] at h
    simp only [] at h
    exact ⟨vv, rfl, ((Except.ok.injEq _ _).mp h).symm⟩

lemma applySwaps_congr (f g : Nat → Nat) (p : Nat → Nat → ℚ) :
    ∀ m, (∀ t, t < m → f t = g t) → applySwaps f m p = applySwaps g m p := by
  intro m
  induction m with
  | zero =>
    intro _
    rfl
  | succ k ih =>
    intro h
    rw [applySwaps, applySwaps, ih (fun t ht => h t (by omega)), h k (by omega)]

lemma columnLoop_perm (clamp : ℚ → ℚ) (n : Nat) :
    ∀ m, m ≤ n → ∀ s, (∀ i, 0 ≤ s.vv i) →
      (∀ t, m ≤ t → (columnLoop clamp n m s).indx t = s.indx t) ∧
      (∀ t, t < m → t ≤ (columnLoop clamp n m s).indx t ∧
        (columnLoop clamp n m s).indx t < n) ∧
      (columnLoop clamp n m s).p = applySwaps (columnLoop clamp n m s).indx m s.p := by
  intro m
  induction m with
  | zero =>
    intro _ s _
    exact ⟨fun t _ => rfl, fun t ht => absurd ht (by omega), rfl⟩
  | succ k ih =>
    intro hm s hvv
    obtain ⟨hst, hrange, hperm⟩ := ih (by omega) s hvv
    have hvv' : ∀ i, 0 ≤ (columnLoop clamp n k s).vv i :=
      columnLoop_vv_nonneg clamp n k s hvv
    have himax := colImax_mem n k (columnLoop clamp n k s) hvv' (by omega)
    have hindx : (columnLoop clamp n (k+1) s).indx
        = upd1N (columnLoop clamp n k s).indx k (colImax n k (columnLoop clamp n k s)) := by
      rw [columnLoop, columnStep_indx, preClamp_indx]
    have hp : (columnLoop clamp n (k+1) s).p
        = rowSwap (columnLoop clamp n k s).p k (colImax n k (columnLoop clamp n k s)) := by
      rw [columnLoop, columnStep_p, preClamp_p]
    refine ⟨?_, ?_, ?_⟩
    · intro t ht
      rw [hindx, upd1N_ne _ _ _ (by omega)]
      exact hst t (by omega)
    · intro t ht
      rcases Nat.lt_succ_iff_lt_or_eq.mp ht with h | h
      · rw [hindx, upd1N_ne _ _ _ (by omega)]
        exact hrange t h
      · subst h
        rw [hindx, upd1N_self]
        exact himax
    · rw [hp, hindx, applySwaps, upd1N_self]
      rw [applySwaps_congr _ (columnLoop clamp n k s).indx _ k
        (fun t ht => upd1N_ne _ _ _ (by omega))]
      rw [hperm]

lemma clampDiag_ne_zero {small : ℚ} (hs : 0 < small) (x : ℚ) :
    clampDiag small x ≠ 0 := by
  unfold clampDiag
  split
  · exact ne_of_gt hs
  · rename_i h
    intro h0
    rw [h0] at h
    simp only [abs_zero] at h
    exact h (le_of_lt hs)

lemma clampDiagLu_pos (x : ℚ) : 0 < clampDiagLu x := by
  unfold clampDiagLu smallLu
  split
  · norm_num
  · rename_i h
    push_neg at h
    exact h

lemma luDecomposition_parity (small : ℚ) (a : Nat → Nat → ℚ) (n : Nat)
    (r : LUState) (h : luDecomposition small a n = .ok r) :
    r.d = (-1)^r.swaps := by
  obtain ⟨vv, _, hr⟩ := luDecompositionWith_ok _ _ _ _ _ h
  subst hr
  exact columnLoop_parity _ n n (initState a vv) (by simp [initState])

/-! The claims. -/

/-- Claim C1: for every n by n matrix, Decompose raises the SingularMatrix error
if and only if some row's maximum absolute value is at or below the numeric
tolerance, and this is the only error Decompose raises.  The check lives in the
scale-factor scan, which in this embedding runs before the column loop and
whose error short-circuits the computation, so a raised error means no
elimination step was performed on the matrix. -/
theorem c1_singular_iff_rowmax (small : ℚ) (a : Nat → Nat → ℚ) (n : Nat) :
    (∀ e, luDecomposition small a n = .error e → e = singularMsg) ∧
    ((∃ e, luDecomposition small a n = .error e) ↔
      ∃ i, i < n ∧ rowMax a i n ≤ small) := by
  constructor
  · intro e h
    unfold luDecomposition luDecompositionWith at h
    rcases hs : scaleScan small a n n with e' | vv
    · rw [hs] at h
      simp only [] at h
      injection h with h2
      exact h2 ▸ scaleScan_error_msg small a n n e' hs
    · rw [hs] at h
      simp only [] at h
      exact absurd h (by simp)
  · rw [← scaleScan_error_iff small a n n]
    constructor
    · rintro ⟨e, h⟩
      unfold luDecomposition luDecompositionWith at h
      rcases hs : scaleScan small a n n with e' | vv
      · exact ⟨e', rfl⟩
      · rw [hs] at h
        simp only [] at h
        exact absurd h (by simp)
    · rintro ⟨e, h⟩
      refine ⟨e, ?_⟩
      unfold luDecomposition luDecompositionWith
      rw [h]

/-- Witness for C1 at a concrete input: the 1 by 1 zero matrix is reported
singular, with the singular-matrix message. -/
theorem c1_singular_iff_rowmax_witness :
    luDecomposition eps (fun _ _ => 0) 1 = .error singularMsg := by
  obtain ⟨e, he⟩ := (c1_singular_iff_rowmax eps (fun _ _ => 0) 1).2.mpr
    ⟨0, by norm_num, by norm_num [rowMax, eps]⟩
  rw [(c1_singular_iff_rowmax eps (fun _ _ => 0) 1).1 e he] at he
  exact he

/-- Claim C4: during Decompose, the diagonal element of column j is replaced by
the tolerance floor exactly when its magnitude is at or below the tolerance; a
diagonal whose magnitude exceeds the tolerance, in particular a large-magnitude
negative one, is left unchanged.  The third conjunct states that the column
step of the decomposition applies exactly this clamp to the diagonal element
produced by the preceding stages (and that the subsequent sub-diagonal division
does not disturb it). -/
theorem c4_diagonal_clamp_iff (small x : ℚ) (hs : 0 < small) :
    (clampDiag small x = small ↔ |x| ≤ small) ∧
    (small < |x| → clampDiag small x = x) ∧
    (∀ n j s, (columnStep (clampDiag small) n j s).a j j
        = clampDiag small ((preClamp n j s).a j j)) := by
  refine ⟨⟨?_, ?_⟩, ?_, fun n j s => columnStep_diag_self _ n j s⟩
  · intro h
    by_contra hlt
    push_neg at hlt
    unfold clampDiag at h
    rw [if_neg (not_le.mpr hlt)] at h
    rw [h, abs_of_pos hs] at hlt
    exact lt_irrefl small hlt
  · intro h
    unfold clampDiag
    rw [if_pos h]
  · intro h
    unfold clampDiag
    rw [if_neg (not_le.mpr h)]

/-- Witness for C4 at concrete inputs: with tolerance 1, a diagonal value -5
(negative, large magnitude) is kept, and a diagonal value 1/2 (at or below
tolerance in magnitude) is replaced by the tolerance. -/
theorem c4_diagonal_clamp_iff_witness :
    clampDiag 1 (-5) = -5 ∧ clampDiag 1 (1/2) = 1 := by
  constructor
  · exact (c4_diagonal_clamp_iff 1 (-5) (by norm_num)).2.1 (by norm_num)
  · exact (c4_diagonal_clamp_iff 1 (1/2) (by norm_num)).1.mpr (by norm_num [abs_le])

/-- Claim C5: every diagonal element of a successfully decomposed matrix is
non-zero (the clamp of stage e forces the tolerance whenever the magnitude is
at or below it, and later columns never write an earlier diagonal), so each
division `sum / a(i,i)` in the backward loop of backSubstitution, which performs
no zero check of its own, has a non-zero divisor. -/
theorem c5_decomposed_diagonal_nonzero (small : ℚ) (a : Nat → Nat → ℚ) (n : Nat)
    (r : LUState) (hs : 0 < small) (h : luDecomposition small a n = .ok r) :
    ∀ i, i < n → r.a i i ≠ 0 := by
  obtain ⟨vv, hscan, hr⟩ := luDecompositionWith_ok _ _ _ _ _ h
  subst hr
  exact fun i hi => columnLoop_diag _ (fun x => x ≠ 0) (clampDiag_ne_zero hs) n n
    (le_refl n) _ (scaleScan_ok_nonneg _ _ _ _ _ hscan) i hi

/-- Claim C10: in the lu.hpp variant, the sign-guarded clamp replaces any
non-positive diagonal value, regardless of magnitude, by the constant 1.0e-07,
so every diagonal element of a successfully decomposed matrix is strictly
positive on return. -/
theorem c10_lu_diagonal_positive (a : Nat → Nat → ℚ) (n : Nat) (r : LUState)
    (h : luDecompositionLu a n = .ok r) :
    ∀ i, i < n → 0 < r.a i i := by
  obtain ⟨vv, hscan, hr⟩ := luDecompositionWith_ok _ _ _ _ _ h
  subst hr
  exact fun i hi => columnLoop_diag _ (fun x => 0 < x) clampDiagLu_pos n n
    (le_refl n) _ (scaleScan_ok_nonneg _ _ _ _ _ hscan) i hi

/-- Claim C7: on success every pivot-vector entry indx[j] is a valid row index
(in fact j <= indx[j] < n), and replaying the recorded interchanges on the
identity matrix (for j = 0 .. n-1, swap rows j and indx[j]) yields exactly the
ghost permutation record, i.e. the row permutation the decomposition applied to
the matrix. -/
theorem c7_pivot_valid_and_swaps_reproduce (small : ℚ) (a : Nat → Nat → ℚ)
    (n : Nat) (r : LUState) (h : luDecomposition small a n = .ok r) :
    (∀ j, j < n → j ≤ r.indx j ∧ r.indx j < n) ∧
    r.p = applySwaps r.indx n idMat := by
  obtain ⟨vv, hscan, hr⟩ := luDecompositionWith_ok _ _ _ _ _ h
  subst hr
  obtain ⟨_, hrange, hperm⟩ := columnLoop_perm (clampDiag small) n n (le_refl n)
    (initState a vv) (scaleScan_ok_nonneg _ _ _ _ _ hscan)
  exact ⟨hrange, hperm⟩

/-- Amended claim C6: during the pivot search of column j, the selected row is
the one with the maximal scaled figure of merit, and among rows of equal
maximal merit the LAST row encountered (largest row index) wins, because the
comparison `dum >= aamax` re-selects on ties.  (The claim as frozen says ties
favor the first row; the counterexample theorem refutes that.) -/
theorem c6_amended_ties_favor_last (vv : Nat → ℚ) (a0 : Nat → Nat → ℚ)
    (j n : Nat) (hvv : ∀ i, 0 ≤ vv i) (hj : j < n) :
    (j ≤ (pivotSearch vv j (n - j) ⟨a0, 0, 0⟩).imax ∧
      (pivotSearch vv j (n - j) ⟨a0, 0, 0⟩).imax < n) ∧
    (∀ i, j ≤ i → i < n → pivotMerit vv a0 j i
      ≤ pivotMerit vv a0 j (pivotSearch vv j (n - j) ⟨a0, 0, 0⟩).imax) ∧
    (∀ i, j ≤ i → i < n →
      pivotMerit vv a0 j i = pivotMerit vv a0 j (pivotSearch vv j (n - j) ⟨a0, 0, 0⟩).imax →
      i ≤ (pivotSearch vv j (n - j) ⟨a0, 0, 0⟩).imax) := by
  have h := pivotSearch_spec vv a0 j hvv (n - j) (by omega)
  have hn : j + (n - j) = n := by omega
  rw [hn] at h
  refine ⟨h.1, ?_, ?_⟩
  · intro i hji hin
    rw [← h.2.1]
    exact h.2.2.1 i hji hin
  · intro i hji hin heq
    by_contra hgt
    push_neg at hgt
    have hlt := h.2.2.2 i hji hin hgt
    rw [← h.2.1] at heq
    exact lt_irrefl _ (heq ▸ hlt)

/-- Witness for C6 amended at the concrete scenario: for column 0 of matA, the
selected pivot row is inside the valid range. -/
theorem c6_amended_ties_favor_last_witness :
    0 ≤ (pivotSearch vvA 0 (2 - 0) ⟨matA, 0, 0⟩).imax ∧
    (pivotSearch vvA 0 (2 - 0) ⟨matA, 0, 0⟩).imax < 2 := by
  refine (c6_amended_ties_favor_last vvA matA 0 2 ?_ (by norm_num)).1
  intro i
  unfold vvA
  split
  · norm_num
  · split
    · norm_num
    · norm_num

lemma copyRow_lt (src : Nat → Nat → ℚ) (i : Nat) :
    ∀ m a j', j' < m → copyRow src i m a i j' = src i j' := by
  intro m
  induction m with
  | zero =>
    intro a j' h
    exact absurd h (by omega)
  | succ k ih =>
    intro a j' h
    rcases Nat.lt_succ_iff_lt_or_eq.mp h with h | h
    · rw [copyRow, upd2_ne _ _ _ _ (Or.inr (by omega))]
      exact ih a j' h
    · subst h
      rw [copyRow, upd2_self]

lemma copyRow_ne (src : Nat → Nat → ℚ) (i : Nat) :
    ∀ m a i' j', i' ≠ i → copyRow src i m a i' j' = a i' j' := by
  intro m
  induction m with
  | zero =>
    intro a i' j' _
    rfl
  | succ k ih =>
    intro a i' j' h
    rw [copyRow, upd2_ne _ _ _ _ (Or.inl h)]
    exact ih a i' j' h

lemma copyBack_lt (src : Nat → Nat → ℚ) (n : Nat) :
    ∀ m a i j', i < m → j' < n → copyBack src n m a i j' = src i j' := by
  intro m
  induction m with
  | zero =>
    intro a i j' h _
    exact absurd h (by omega)
  | succ k ih =>
    intro a i j' h hj
    rcases Nat.lt_succ_iff_lt_or_eq.mp h with h | h
    · rw [copyBack, copyRow_ne _ _ _ _ _ _ (by omega)]
      exact ih a i j' h hj
    · subst h
      rw [copyBack, copyRow_lt _ _ _ _ _ hj]

lemma writeColLoop_at (j : Nat) (col : Nat → ℚ) :
    ∀ m inv i, i < m → writeColLoop j col m inv i j = col i := by
  intro m
  induction m with
  | zero =>
    intro inv i h
    exact absurd h (by omega)
  | succ k ih =>
    intro inv i h
    rcases Nat.lt_succ_iff_lt_or_eq.mp h with h | h
    · rw [writeColLoop, upd2_ne _ _ _ _ (Or.inl (by omega))]
      exact ih inv i h
    · subst h
      rw [writeColLoop, upd2_self]

lemma writeColLoop_ne (j : Nat) (col : Nat → ℚ) :
    ∀ m inv i j', j' ≠ j → writeColLoop j col m inv i j' = inv i j' := by
  intro m
  induction m with
  | zero =>
    intro inv i j' _
    rfl
  | succ k ih =>
    intro inv i j' h
    rw [writeColLoop, upd2_ne _ _ _ _ (Or.inr h)]
    exact ih inv i j' h

lemma invColumns_at (small : ℚ) (a : Nat → Nat → ℚ) (n : Nat) (indx : Nat → Nat) :
    ∀ m inv i k, k < m → i < n →
      invColumns small a n indx m inv i k
        = backSubstitution small a n indx (unitVec k) i := by
  intro m
  induction m with
  | zero =>
    intro inv i k h _
    exact absurd h (by omega)
  | succ t ih =>
    intro inv i k h hi
    rcases Nat.lt_succ_iff_lt_or_eq.mp h with h | h
    · rw [invColumns, writeColLoop_ne _ _ _ _ _ _ (by omega)]
      exact ih inv i k h hi
    · subst h
      rw [invColumns, writeColLoop_at _ _ _ _ _ hi]

/-- Claim C8: after inverseNoLU, every in-range element (i,k) of the caller's
matrix storage holds component i of the solution of backSubstitution against
the unit basis vector e_k; the copy-back loop overwrites all n by n elements of
the former L-U content with these inverse columns. -/
theorem c8_inverse_columns_are_solves (small : ℚ) (a : Nat → Nat → ℚ) (n : Nat)
    (indx : Nat → Nat) (i k : Nat) (hi : i < n) (hk : k < n) :
    inverseNoLU small a n indx i k = backSubstitution small a n indx (unitVec k) i := by
  unfold inverseNoLU
  rw [copyBack_lt _ _ _ _ _ _ hi hk]
  exact invColumns_at small a n indx n _ i k hk hi

/-- Witness for C8 at a concrete input: dimension 1, the identity matrix and a
zero pivot vector. -/
theorem c8_inverse_columns_are_solves_witness :
    inverseNoLU 1 idMat 1 (fun _ => 0) 0 0
      = backSubstitution 1 idMat 1 (fun _ => 0) (unitVec 0) 0 :=
  c8_inverse_columns_are_solves 1 idMat 1 (fun _ => 0) 0 0 (by norm_num) (by norm_num)

lemma luIsOk_matA : luIsOk eps matA 2 = true := by
  norm_num [luIsOk, luDecomposition, luDecompositionWith, scaleScan, rowMax, matA, eps,
    columnLoop, columnStep, preClamp, betasAbove, pivotSearch, dotSub, clampDiag,
    divideBelow, rowSwap, upd1, upd1N, upd2, initState, idMat]

lemma luIsOkLu_matA : luIsOkLu matA 2 = true := by
  norm_num [luIsOkLu, luDecompositionLu, luDecompositionWith, scaleScan, rowMax, matA,
    smallLu, columnLoop, columnStep, preClamp, betasAbove, pivotSearch, dotSub,
    clampDiagLu, divideBelow, rowSwap, upd1, upd1N, upd2, initState, idMat]

/-- Witness for C5 at the concrete scenario: the decomposition of matA succeeds
and both diagonal elements of the decomposed matrix are non-zero. -/
theorem c5_decomposed_diagonal_nonzero_witness :
    (luDecomposition eps matA 2).map (fun r => decide (r.a 0 0 ≠ 0 ∧ r.a 1 1 ≠ 0))
      = .ok true := by
  rcases hE : luDecomposition eps matA 2 with e | r
  · have h := luIsOk_matA
    unfold luIsOk at h
    rw [hE] at h
    simp at h
  · have h := c5_decomposed_diagonal_nonzero eps matA 2 r (by norm_num [eps]) hE
    simp only [Except.map, Except.ok.injEq, decide_eq_true_eq]
    exact ⟨h 0 (by norm_num), h 1 (by norm_num)⟩

/-- Witness for C7 at the concrete scenario: the pivot entries of the
decomposition of matA are valid row indices and the ghost permutation record
agrees with the replayed swaps at a sample entry. -/
theorem c7_pivot_valid_and_swaps_reproduce_witness :
    (luDecomposition eps matA 2).map
      (fun r => decide (r.indx 0 < 2 ∧ r.indx 1 < 2 ∧
        r.p 0 1 = applySwaps r.indx 2 idMat 0 1)) = .ok true := by
  rcases hE : luDecomposition eps matA 2 with e | r
  · have h := luIsOk_matA
    unfold luIsOk at h
    rw [hE] at h
    simp at h
  · have h := c7_pivot_valid_and_swaps_reproduce eps matA 2 r hE
    simp only [Except.map, Except.ok.injEq, decide_eq_true_eq]
    exact ⟨(h.1 0 (by norm_num)).2, (h.1 1 (by norm_num)).2, by rw [h.2]⟩

/-- Witness for C10 at the concrete scenario: the lu.hpp-variant decomposition
of matA succeeds and both diagonal elements are strictly positive. -/
theorem c10_lu_diagonal_positive_witness :
    (luDecompositionLu matA 2).map (fun r => decide (0 < r.a 0 0 ∧ 0 < r.a 1 1))
      = .ok true := by
  rcases hE : luDecompositionLu matA 2 with e | r
  · have h := luIsOkLu_matA
    unfold luIsOkLu at h
    rw [hE] at h
    simp at h
  · have h := c10_lu_diagonal_positive matA 2 r hE
    simp only [Except.map, Except.ok.injEq, decide_eq_true_eq]
    exact ⟨h 0 (by norm_num), h 1 (by norm_num)⟩

/-- Claim C2 (evaluation at the failing input): decomposing matA = [[4,3],[6,3]]
performs exactly one row interchange, so the internal parity variable d ends at
-1 — a negative value, while the function's declared return type std::size_t is
unsigned, so the parity sign documented and specified for the return value
cannot actually be delivered. -/
theorem c2_parity_negative_run :
    luParity eps matA 2 = .ok (-1) ∧ luSwapCount eps matA 2 = .ok 1 ∧ (-1 : ℚ) < 0 := by
  refine ⟨?_, ?_, by norm_num⟩
  · norm_num [luParity, luDecomposition, luDecompositionWith, scaleScan, rowMax, matA, eps,
      columnLoop, columnStep, preClamp, betasAbove, pivotSearch, dotSub, clampDiag,
      divideBelow, rowSwap, upd1, upd1N, upd2, initState, idMat, Except.map]
  · norm_num [luSwapCount, luDecomposition, luDecompositionWith, scaleScan, rowMax, matA, eps,
      columnLoop, columnStep, preClamp, betasAbove, pivotSearch, dotSub, clampDiag,
      divideBelow, rowSwap, upd1, upd1N, upd2, initState, idMat, Except.map]

/-- Amended claim C3: Decompose followed by Solve on A = [[4,3],[6,3]],
b = [1,2] yields exactly x = [1/2, -1/3] (so, for double precision, a result
within 1e-9 of [0.5, -0.333...], not of the values the frozen claim lists). -/
theorem c3_amended_exact_solution :
    (decomposeSolve eps matA 2 bvec).map (fun x => (x 0, x 1)) = .ok (1/2, -1/3) ∧
    (decomposeSolve eps matA 2 bvec).map
      (fun x => (within (x 0) (1/2) (1/10^9), within (x 1) (-1/3) (1/10^9)))
      = .ok (true, true) := by
  constructor
  · norm_num [decomposeSolve, luDecomposition, luDecompositionWith, scaleScan, rowMax,
      matA, eps, bvec, columnLoop, columnStep, preClamp, betasAbove, pivotSearch, dotSub,
      clampDiag, divideBelow, rowSwap, upd1, upd1N, upd2, initState, idMat,
      backSubstitution, bsubPhase1, bsubPhase2, innerSub, Except.map]
  · norm_num [decomposeSolve, luDecomposition, luDecompositionWith, scaleScan, rowMax,
      matA, eps, bvec, columnLoop, columnStep, preClamp, betasAbove, pivotSearch, dotSub,
      clampDiag, divideBelow, rowSwap, upd1, upd1N, upd2, initState, idMat,
      backSubstitution, bsubPhase1, bsubPhase2, innerSub, Except.map,
      within, decide_eq_true_eq, abs_le]

/-- Counterexample to claim C3 as frozen: the computed solution for
A = [[4,3],[6,3]], b = [1,2] is x = [1/2, -1/3], which is not within 1e-9 of
the claimed x ~ [-1.0, 1.667] (the distances are about 1.5 and 2, far beyond
any double-precision rounding, so the exact-rational model is conclusive). -/
theorem c3_counterexample_claimed_values :
    (decomposeSolve eps matA 2 bvec).map
      (fun x => (x 0, x 1, within (x 0) (-1) (1/10^9), within (x 1) (1667/1000) (1/10^9)))
      = .ok (1/2, -1/3, false, false) := by
  norm_num [decomposeSolve, luDecomposition, luDecompositionWith, scaleScan, rowMax,
    matA, eps, bvec, columnLoop, columnStep, preClamp, betasAbove, pivotSearch, dotSub,
    clampDiag, divideBelow, rowSwap, upd1, upd1N, upd2, initState, idMat,
    backSubstitution, bsubPhase1, bsubPhase2, innerSub, Except.map,
    within, decide_eq_false_iff_not, abs_le]

/-- Counterexample to claim C6 as frozen: at column 0 of matA = [[4,3],[6,3]]
the two candidate rows have equal scaled figures of merit (both 1), yet the
pivot search selects row 1, not the first row 0, and the full decomposition
records pivot 1 for column 0.  The scale factors used are exactly those the
scan produces. -/
theorem c6_counterexample_tie_not_first :
    pivotMerit vvA matA 0 0 = pivotMerit vvA matA 0 1 ∧
    (pivotSearch vvA 0 (2 - 0) ⟨matA, 0, 0⟩).imax = 1 ∧
    (scaleScan eps matA 2 2).map (fun v => (v 0, v 1)) = .ok (1/4, 1/6) ∧
    luPivotAt eps matA 2 0 = .ok 1 := by
  refine ⟨?_, ?_, ?_, ?_⟩
  · norm_num [pivotMerit, dotSub, vvA, matA]
  · norm_num [pivotSearch, dotSub, vvA, matA, upd2]
  · norm_num [scaleScan, rowMax, matA, eps, upd1, Except.map]
  · norm_num [luPivotAt, luDecomposition, luDecompositionWith, scaleScan, rowMax, matA, eps,
      columnLoop, columnStep, preClamp, betasAbove, pivotSearch, dotSub, clampDiag,
      divideBelow, rowSwap, upd1, upd1N, upd2, initState, idMat, Except.map]

/-- Claim C9 (evaluation at the failing input): the progress stride
`std::size_t n = ndim/100.0 * 10.0` truncates to 0 for every dimension up to 9,
so the guard `j % n` divides by zero (undefined behaviour, modelled as `none`)
already at the first column of, e.g., a 2 by 2 decomposition; for ndim = 10 the
stride is 1 and the guard is well-defined. -/
theorem c9_progress_stride_zero :
    progressInterval 1 = 0 ∧ progressInterval 2 = 0 ∧ progressInterval 3 = 0 ∧
    progressInterval 9 = 0 ∧ progressCheck 2 0 = none ∧
    progressInterval 10 = 1 ∧ progressCheck 10 0 = some true := by
  norm_num [progressInterval, progressCheck]

end Simploce
